import Mathlib

/-!
Verification of the file-derived collection store implemented in
`crates/vault/src/db.rs` of the markdown-oxide repository.

The Rust source is shallowly embedded in Lean:

* redb tables become association lists with first-match lookup
  (`tfind`), overwrite-insert (`tinsert`) and remove (`terase`);
* machine integers become `Nat` (the `u128` stamp of `FileState` is a
  natural number, with `% 2 ^ 128` spelled out where overflow matters);
* fallible Rust code returning `anyhow::Result` becomes `Option` /
  `Except Unit`;
* the user-supplied bincode codec of the item type `T` becomes explicit
  `enc : T → Option Bytes` / `dec : Bytes → Option T` parameters;
* filesystem effects (reading a file in `async_populate`, walking the
  directory in `new_msync`, opening the database file) become explicit
  inputs: a `readFile : FileKey → Option String` map, an `FSEntry` tree,
  and an `Option DiskDB` for a database file that may be absent.
-/

namespace Vault

/-- Relative path of a file: `pub type FileKey = String;` in the source. -/
abbrev FileKey := String

/-- `struct FileState(u128)`: the stamp value, as a natural number
(meaningful values are below `2 ^ 128`). -/
abbrev FileState := Nat

/-- A byte string (`Vec<u8>` in the source); bytes are naturals below 256. -/
abbrev Bytes := List Nat

/-- A redb table keyed by `FileKey`, modelled as an association list with
first-match lookup. -/
abbrev Table (V : Type) := List (FileKey × V)

variable {V : Type}

/-- Table lookup (redb `get`): first binding of the key, if any. -/
def tfind (k : FileKey) : Table V → Option V
  | [] => none
  | p :: t => if p.1 = k then some p.2 else tfind k t

/-- Table removal (redb `remove`): drop every binding of the key. -/
def terase (k : FileKey) (t : Table V) : Table V :=
  t.filter (fun p => p.1 != k)

/-- Table insertion (redb `insert`): overwrite the binding of the key. -/
def tinsert (k : FileKey) (v : V) (t : Table V) : Table V :=
  (k, v) :: terase k t

/-! ### The `FileState` codec (`impl redb::Value for FileState`) -/

/-- Little-endian byte decomposition: `toLEBytes n x` is the list of the
`n` low base-256 digits of `x`, least significant first.
`u128::to_le_bytes` produces exactly `toLEBytes 16 x`. -/
def toLEBytes : Nat → Nat → List Nat
  | 0, _ => []
  | n + 1, x => x % 256 :: toLEBytes n (x / 256)

/-- `as_bytes` of `impl redb::Value for FileState`:
`value.0.to_le_bytes()`, a fixed-width 16-byte little-endian encoding. -/
def FileState.as_bytes (x : FileState) : Bytes :=
  toLEBytes 16 x

/-- `from_bytes` of `impl redb::Value for FileState`:
`u128::from_le_bytes(data)`. -/
def FileState.from_bytes (bs : Bytes) : FileState :=
  bs.foldr (fun b acc => acc * 256 + b) 0

/-! ### The diff engine of `FileDB::new_msync`

`new_msync` collects the scan result into
`new_files_state : HashSet<(Arc<FileKey>, FileState)>`, loads
`old_files_state` as `self.state()?.unwrap_or_default()` (`state()`
returns `None` when the database file does not exist), and computes

* `diff_new_and_different = new_files_state.difference(&old_files_state)`
  (the updates), and
* `removed_paths = old_paths.difference(&new_paths)` where `old_paths`
  and `new_paths` are the key projections of the two sets (the deletes).
-/

/-- Updates of `FileDB::new_msync`: set difference of the new scan set and
the persisted state set (the whole `(key, state)` pair is compared). -/
def msyncUpdates (newStates : Finset (FileKey × FileState))
    (oldOpt : Option (Finset (FileKey × FileState))) :
    Finset (FileKey × FileState) :=
  newStates \ oldOpt.getD ∅

/-- Deletes of `FileDB::new_msync`: key-set difference, old minus new,
independent of stamps. -/
def msyncDeletes (newStates : Finset (FileKey × FileState))
    (oldOpt : Option (Finset (FileKey × FileState))) :
    Finset FileKey :=
  ((oldOpt.getD ∅).image Prod.fst) \ (newStates.image Prod.fst)

/-! ### The file-state scanner of `FileDB::new_msync`

`new_msync` walks the root directory with `WalkDir::new(self.dir)
.follow_links(false)` and a `filter_entry` closure: a directory is
entered iff its basename does not start with a dot; a file passes iff
its basename does not start with a dot and its `Path::extension()`
equals `md` or `markdown` under `eq_ignore_ascii_case`.  `filter_entry`
prunes the whole subtree of a rejected directory.  The model walks a
directory tree (`FSEntry`) and collects, per included file, the list of
directory basenames below the root together with the file's basename. -/

/-- ASCII lowercasing of one character, as done by
`str::eq_ignore_ascii_case`. -/
def asciiLower (c : Char) : Char :=
  if 'A' ≤ c && c ≤ 'Z' then Char.ofNat (c.toNat + 32) else c

/-- `str::eq_ignore_ascii_case`: equality after ASCII lowercasing. -/
def eqIgnoreAsciiCase (a b : String) : Bool :=
  a.toList.map asciiLower == b.toList.map asciiLower

/-- The part of a character list after its last dot, if it has one. -/
def afterLastDot : List Char → Option (List Char)
  | [] => none
  | c :: cs =>
    match afterLastDot cs with
    | some r => some r
    | none => if c = '.' then some cs else none

/-- `Path::extension()` on a basename: the portion after the last dot,
except that a dot in the first position does not start an extension
(so a hidden name like a dotfile with a single dot has no extension)
and the special parent-directory name has none. -/
def extOf (name : String) : Option String :=
  if name = ".." then none
  else
    match name.toList with
    | [] => none
    | _ :: cs => (afterLastDot cs).map fun r => ⟨r⟩

/-- Basename starts with a dot (`s.starts_with('.')` in the source). -/
def isHidden (name : String) : Bool :=
  match name.toList with
  | [] => false
  | c :: _ => c = '.'

/-- The extension test of the `filter_entry` closure:
`ext.eq_ignore_ascii_case("md") || ext.eq_ignore_ascii_case("markdown")`. -/
def extAccepted (e : String) : Bool :=
  eqIgnoreAsciiCase e "md" || eqIgnoreAsciiCase e "markdown"

/-- The file branch of the `filter_entry` closure: not hidden, and the
extension (when present) is accepted. -/
def includeFile (name : String) : Bool :=
  !isHidden name && ((extOf name).map extAccepted).getD false

/-- A directory tree: regular files and directories with basenames. -/
inductive FSEntry : Type where
  | file : String → FSEntry
  | dir : String → List FSEntry → FSEntry

mutual

/-- The scan of one entry: relative paths (list of directory basenames
below the entry, plus the file basename) of every file the walker
yields.  Mirrors `filter_entry`: a hidden directory prunes its whole
subtree; a file is kept iff `includeFile` accepts its basename. -/
def scanEntry : FSEntry → List (List String × String)
  | .file n => if includeFile n then [([], n)] else []
  | .dir n cs =>
    if isHidden n then []
    else (scanList cs).map fun p => (n :: p.1, p.2)

/-- The scan of a list of sibling entries, in order. -/
def scanList : List FSEntry → List (List String × String)
  | [] => []
  | e :: es => scanEntry e ++ scanList es

end

/-- `FindsFile e ds f`: following the directory basenames `ds` from
entry `e` reaches a regular file with basename `f`. -/
inductive FindsFile : FSEntry → List String → String → Prop where
  | file (n : String) : FindsFile (.file n) [] n
  | dir (n f : String) (c : FSEntry) (cs : List FSEntry) (ds : List String) :
      c ∈ cs → FindsFile c ds f → FindsFile (.dir n cs) (n :: ds) f

/-! ### The sync pipeline (`struct Sync<SyncItem, DBItem>`)

The source's `Sync` holds the `FileDB` handle, the pending `updates`
and the `deletes` set.  The model keeps `updates` and `deletes` in the
structure and threads the on-disk table contents (`DiskDB`) explicitly
through `runSync` / `applySync`; the `DBItem` type parameter only
matters at `run`, where it is the item type of the store. -/

/-- `struct FileItemUpdate<Item> { key, state, sync_item }`. -/
structure FileItemUpdate (I : Type) where
  key : FileKey
  state : FileState
  sync_item : I
deriving DecidableEq

/-- The pending part of a sync session: `updates` and `deletes`. -/
structure MSync (I : Type) where
  updates : List (FileItemUpdate I)
  deletes : List FileKey
deriving DecidableEq

/-- `Sync::async_populate`: for every update, read the file's current
contents and apply the user function to `(key, contents)`.  Failed
reads are dropped by `flatten_results_and_log` (the update disappears;
`deletes` is passed through unchanged). -/
def asyncPopulate (readFile : FileKey → Option String)
    (f : FileKey → String → I) (s : MSync Unit) : MSync I :=
  { updates := s.updates.filterMap fun u =>
      (readFile u.key).map fun c => ⟨u.key, u.state, f u.key c⟩
    deletes := s.deletes }

/-- `Sync::map`: apply a pure function to every carrier, one to one. -/
def mapSync (f : I → J) (s : MSync I) : MSync J :=
  { updates := s.updates.map fun u => ⟨u.key, u.state, f u.sync_item⟩
    deletes := s.deletes }

/-- `Sync::flat_map`: expand every carrier into a sequence; each
expanded carrier inherits the parent's key and state, in order. -/
def flatMapSync (f : I → List J) (s : MSync I) : MSync J :=
  { updates := s.updates.flatMap fun u =>
      (f u.sync_item).map fun it => ⟨u.key, u.state, it⟩
    deletes := s.deletes }

/-- `Sync::inner_flatten`: flatten carriers that are already sequences,
with the same key/state inheritance. -/
def innerFlatten (s : MSync (List I)) : MSync I :=
  { updates := s.updates.flatMap fun u =>
      u.sync_item.map fun it => ⟨u.key, u.state, it⟩
    deletes := s.deletes }

/-- `Sync::external_async_map`: collect the `(key, state)` pairs and the
carriers, call the user function on the batched carrier vector, and zip
the pairs back with the returned vector.  Note the source performs no
length check: `zip` silently truncates to the shorter side. -/
def externalAsyncMap (f : List I → Except Unit (List J)) (s : MSync I) :
    Except Unit (MSync J) :=
  let keys := s.updates.map fun u => (u.key, u.state)
  let oldValues := s.updates.map fun u => u.sync_item
  match f oldValues with
  | .error e => .error e
  | .ok result =>
    .ok { updates := (keys.zip result).map fun kv => ⟨kv.1.1, kv.1.2, kv.2⟩
          deletes := s.deletes }

/-- The group keys of `Sync::run`: the distinct `(key, state)` pairs of
the updates.  The source groups with `into_group_map_by` into a
`HashMap`, whose group order is unspecified; the model fixes one order.
Only the order of carriers inside one group is semantically relevant,
and that order (encounter order) is modelled faithfully by
`groupUpdates`. -/
def groupKeys (us : List (FileItemUpdate I)) : List (FileKey × FileState) :=
  (us.map fun u => (u.key, u.state)).dedup

/-- The grouping step of `Sync::run`: for every distinct `(key, state)`
pair, collect the carriers of that group in the order they occur in
`updates` (a `HashMap` entry's `Vec` is pushed in iteration order). -/
def groupUpdates (us : List (FileItemUpdate I)) :
    List (FileKey × FileState × List I) :=
  (groupKeys us).map fun ks =>
    (ks.1, ks.2,
      (us.filter fun u => u.key == ks.1 && u.state == ks.2).map
        fun u => u.sync_item)

/-! ### The store / transaction layer (`FileDB::apply_sync`) -/

/-- The contents of the two tables of the on-disk database file. -/
structure DiskDB where
  main : Table (List Bytes)
  state : Table FileState
deriving DecidableEq

/-- The serialization loop of `apply_sync` for one update's collection:
`collection.into_iter().map(bincode::serialize).collect::<Result<..>>()`;
the first failing item fails the whole collection. -/
def encodeItems (enc : T → Option Bytes) : List T → Option (List Bytes)
  | [] => some []
  | x :: xs =>
    match enc x with
    | none => none
    | some b => (encodeItems enc xs).map fun bs => b :: bs

/-- The update loop of `apply_sync` inside the write transaction: for
each `(key, state, collection)`, serialize the collection (propagating
failure) and overwrite `main_table[key]` and `state_table[key]`. -/
def applyUpdates (enc : T → Option Bytes)
    (ts : Table (List Bytes) × Table FileState) :
    List (FileKey × FileState × List T) →
      Option (Table (List Bytes) × Table FileState)
  | [] => some ts
  | (k, s, items) :: rest =>
    match encodeItems enc items with
    | none => none
    | some bs => applyUpdates enc (tinsert k bs ts.1, tinsert k s ts.2) rest

/-- The delete loop of `apply_sync`: remove each key from both tables. -/
def applyDeletes (ts : Table (List Bytes) × Table FileState)
    (deletes : List FileKey) : Table (List Bytes) × Table FileState :=
  deletes.foldl (fun ts k => (terase k ts.1, terase k ts.2)) ts

/-- `FileDB::apply_sync` up to the transaction commit: run the update
loop, then the delete loop, inside one write transaction.  Any failure
before `commit` (here: item serialization) drops the transaction and
propagates the error; only a successful run commits the new tables. -/
def applySync (enc : T → Option Bytes) (disk : DiskDB)
    (updates : List (FileKey × FileState × List T))
    (deletes : List FileKey) : Except Unit DiskDB :=
  match applyUpdates enc (disk.main, disk.state) updates with
  | none => .error ()
  | some ts =>
    let ts2 := applyDeletes ts deletes
    .ok ⟨ts2.1, ts2.2⟩

/-- The on-disk contents after an `apply_sync` attempt: the committed
tables on success; the untouched prior tables when the transaction was
abandoned before commit. -/
def diskAfterSync (enc : T → Option Bytes) (disk : DiskDB)
    (updates : List (FileKey × FileState × List T))
    (deletes : List FileKey) : DiskDB :=
  match applySync enc disk updates deletes with
  | .error _ => disk
  | .ok d => d

/-- `Sync::run`: group the updates by `(key, state)` and hand the
grouped updates and the deletes to `apply_sync`. -/
def runSync (enc : T → Option Bytes) (disk : DiskDB) (s : MSync T) :
    Except Unit DiskDB :=
  applySync enc disk (groupUpdates s.updates) s.deletes

/-! ### The read interface (`db_iter`, `iter`, `fold`, `mem_map`, `new`) -/

/-- The per-row item decoding of `FileDB::db_iter`: for one key's stored
collection, keep the decodable items (`filter_map` with `.ok()`) paired
with the key; undecodable values are skipped, not fatal. -/
def dbIterItems (dec : Bytes → Option T) (m : Table (List Bytes)) :
    List (FileKey × T) :=
  m.flatMap fun kv =>
    kv.2.filterMap fun v => (dec v).map fun t => (kv.1, t)

/-- `FileDB::mem_map`: build the cache by iterating the database.  When
the database file is absent, `Database::open` inside `db_iter` fails
with `NotFound` and `mem_map` propagates the error (it does not special
case a missing file), modelled by `none`. -/
def memMap (dec : Bytes → Option T) (diskOpt : Option DiskDB) :
    Option (List (FileKey × T)) :=
  diskOpt.map fun d => dbIterItems dec d.main

/-- The in-memory part of `struct FileDB<T>`: the cache is `Option`al. -/
structure FileDB (T : Type) where
  cache : Option (List (FileKey × T))

/-- `FileDB::new`: build the cache with `mem_map`; on error, log a
warning and set the cache to `None` (`new` itself never fails). -/
def fileDBNew (dec : Bytes → Option T) (diskOpt : Option DiskDB) :
    FileDB T :=
  { cache := memMap dec diskOpt }

/-- `FileDB::iter`: `self.cache.as_ref().expect(..)`, then iterate the
snapshot.  The `expect` panics when the cache is absent; the panic is
modelled by `none`, a returned snapshot by `some`. -/
def fileDBIter (db : FileDB T) : Option (List (FileKey × T)) :=
  db.cache

/-- The inner loop of `FileDB::fold` for one key's stored collection:
`values.iter().try_fold(..)` where a failing decode is propagated with
the question-mark operator, aborting the whole fold. -/
def foldValues (dec : Bytes → Option T) (f : B → FileKey → T → B)
    (k : FileKey) : B → List Bytes → Except Unit B
  | acc, [] => .ok acc
  | acc, v :: vs =>
    match dec v with
    | none => .error ()
    | some t => foldValues dec f k (f acc k t) vs

/-- `FileDB::fold`: `try_fold` over the rows of the main table, with the
inner `try_fold` over each row's values; the first failing item decode
short-circuits and returns the error instead of an accumulator. -/
def foldDB (dec : Bytes → Option T) (f : B → FileKey → T → B) :
    B → Table (List Bytes) → Except Unit B
  | acc, [] => .ok acc
  | acc, (k, vs) :: rest =>
    match foldValues dec f k acc vs with
    | .error e => .error e
    | .ok acc2 => foldDB dec f acc2 rest

/-! ### Concrete sample inputs used by witnesses and counterexamples -/

/-- A sample item codec: every natural except 7 encodes to a one-byte
string; 7 fails to encode (standing for a bincode failure). -/
def encNat : Nat → Option Bytes :=
  fun n => if n = 7 then none else some [n]

/-- A sample item decoder: one-byte strings below 100 decode; anything
else fails (standing for a bincode failure). -/
def decNat : Bytes → Option Nat :=
  fun bs =>
    match bs with
    | [b] => if b < 100 then some b else none
    | _ => none

/-- A sample session with two pending updates and no deletes. -/
def msync2 : MSync Nat :=
  { updates := [⟨"a.md", 1, 10⟩, ⟨"b.md", 2, 20⟩], deletes := [] }

/-- A sample user function for `external_async_map` that returns a
single-element vector regardless of the input length. -/
def batchDrop : List Nat → Except Unit (List Nat) :=
  fun _ => .ok [99]

/-- A sample on-disk database with one committed entry. -/
def disk1 : DiskDB :=
  { main := [("c.md", [[5]])], state := [("c.md", 3)] }

/-- Sample grouped updates whose second entry contains the unencodable
item 7. -/
def updates4 : List (FileKey × FileState × List Nat) :=
  [("a.md", 1, [1]), ("b.md", 2, [7])]

/-- Sample deletes naming the key already present in `disk1`. -/
def deletes4 : List FileKey :=
  ["c.md"]

/-- Sample grouped updates that encode successfully. -/
def updates5 : List (FileKey × FileState × List Nat) :=
  [("a.md", 1, [1])]

/-- The tables after committing `updates5` and `deletes4` on `disk1`. -/
def disk5 : DiskDB :=
  { main := [("a.md", [[1]])], state := [("a.md", 1)] }

/-- A sample session with a single pending update. -/
def msync1 : MSync Nat :=
  { updates := [⟨"a.md", 1, 10⟩], deletes := [] }

/-- A sample expansion function for `flat_map`: two items per carrier. -/
def fExpand : Nat → List Nat :=
  fun n => [n, n + 1]

/-- The tables after committing the `fExpand` flat-map of `msync1` on
`disk1`. -/
def disk6 : DiskDB :=
  { main := [("a.md", [[10], [11]]), ("c.md", [[5]])]
    state := [("a.md", 1), ("c.md", 3)] }

/-- A sample main table holding one undecodable value (under `decNat`). -/
def tableBad : Table (List Bytes) :=
  [("a.md", [[1], [200]]), ("b.md", [[2]])]

/-- A sample session of unit carriers with two pending updates and no
deletes, as produced by `new_msync` before `async_populate`. -/
def msyncU : MSync Unit :=
  { updates := [⟨"a.md", 1, ()⟩, ⟨"g.md", 4, ()⟩], deletes := [] }

/-- A sample file reader: the file behind `g.md` has disappeared
between scan and populate (its read fails); every other read yields a
fixed line. -/
def readFile1 : FileKey → Option String :=
  fun k => if k = "g.md" then none else some "line"

/-- The tables after committing the populated `msyncU` on a disk that
already holds an entry for `g.md`. -/
def disk7 : DiskDB :=
  { main := [("a.md", [[1]]), ("g.md", [[9]])]
    state := [("a.md", 1), ("g.md", 4)] }

/-- A disk holding an old entry for `g.md` prior to the populated sync. -/
def disk8 : DiskDB :=
  { main := [("g.md", [[9]])], state := [("g.md", 4)] }

/-- A sample populate function mapping every file to the item 1. -/
def popOne : FileKey → String → Nat :=
  fun _ _ => 1

/-! ## Lemmas about the table model -/

theorem tfind_terase (k k2 : FileKey) (t : Table V) :
    tfind k (terase k2 t) = if k2 = k then none else tfind k t := by
  induction t with
  | nil => simp [terase, tfind]
  | cons p t ih =>
    simp only [terase] at ih ⊢
    rw [List.filter_cons]
    by_cases h1 : p.1 = k2
    · have hb : (p.1 != k2) = false := by simp [h1]
      rw [hb, if_neg (by simp)]
      rw [ih]
      by_cases h2 : k2 = k
      · simp [h2]
      · have h3 : ¬ p.1 = k := fun h => h2 (h1.symm.trans h)
        simp [tfind, h2, h3]
    · have hb : (p.1 != k2) = true := bne_iff_ne.mpr h1
      rw [hb, if_pos rfl]
      by_cases h3 : p.1 = k
      · have h2 : ¬ k2 = k := fun h => h1 (h3.trans h.symm)
        simp [tfind, h3, h2]
      · simp [tfind, h3, ih]

theorem tfind_tinsert (k k2 : FileKey) (v : V) (t : Table V) :
    tfind k (tinsert k2 v t) = if k2 = k then some v else tfind k t := by
  by_cases h : k2 = k
  · simp [tinsert, tfind, h]
  · simp [tinsert, tfind, h, tfind_terase]

/-! ## C10: the file-state codec -/

theorem toLEBytes_length (n x : Nat) : (toLEBytes n x).length = n := by
  induction n generalizing x with
  | zero => rfl
  | succ n ih => simp [toLEBytes, ih]

theorem from_bytes_toLEBytes (n x : Nat) (h : x < 256 ^ n) :
    FileState.from_bytes (toLEBytes n x) = x := by
  induction n generalizing x with
  | zero =>
    have hx0 : x = 0 := Nat.lt_one_iff.mp (by simpa using h)
    subst hx0
    rfl
  | succ n ih =>
    have hdiv : x / 256 < 256 ^ n := by
      rw [Nat.div_lt_iff_lt_mul (by norm_num : 0 < 256)]
      calc x < 256 ^ (n + 1) := h
        _ = 256 ^ n * 256 := pow_succ 256 n
    have hrec := ih (x / 256) hdiv
    show FileState.from_bytes (x % 256 :: toLEBytes n (x / 256)) = x
    unfold FileState.from_bytes at hrec ⊢
    rw [List.foldr_cons, hrec]
    exact Nat.div_add_mod' x 256

/-- C10: the file-state codec is a round-trip: for every stamp value
below `2 ^ 128`, decoding the little-endian encoding gives the value
back, and the encoding is fixed-width at exactly 16 bytes. -/
theorem C10_filestate_codec_roundtrip (x : FileState) (hx : x < 2 ^ 128) :
    FileState.from_bytes (FileState.as_bytes x) = x ∧
      (FileState.as_bytes x).length = 16 := by
  refine ⟨?_, toLEBytes_length 16 x⟩
  have h : (2 : Nat) ^ 128 = 256 ^ 16 := by norm_num
  exact from_bytes_toLEBytes 16 x (h ▸ hx)

/-- Witness for C10 at the concrete stamp 123456. -/
theorem C10_filestate_codec_roundtrip_witness :
    (123456 : Nat) < 2 ^ 128 ∧
      (FileState.from_bytes (FileState.as_bytes 123456) = 123456 ∧
        (FileState.as_bytes (123456 : Nat)).length = 16) :=
  ⟨by norm_num, C10_filestate_codec_roundtrip 123456 (by norm_num)⟩

/-! ## C3: the diff engine -/

/-- C3: `new_msync` produces as updates exactly the `(key, state)` pairs
of the new scan set that are not in the persisted state set, and as
deletes exactly the keys of the persisted set that are absent from the
key set of the new scan set; when no database exists, the persisted set
is treated as empty, so the updates are the whole scan set and the
deletes are empty. -/
theorem C3_diff_engine (newS oldS : Finset (FileKey × FileState))
    (k : FileKey) (s : FileState) :
    ((k, s) ∈ msyncUpdates newS (some oldS) ↔
        (k, s) ∈ newS ∧ (k, s) ∉ oldS) ∧
      (k ∈ msyncDeletes newS (some oldS) ↔
        (∃ s2, (k, s2) ∈ oldS) ∧ ∀ s3, (k, s3) ∉ newS) ∧
      msyncUpdates newS none = newS ∧
      msyncDeletes newS none = ∅ := by
  refine ⟨?_, ?_, ?_, ?_⟩
  · simp [msyncUpdates]
  · simp only [msyncDeletes, Option.getD_some, Finset.mem_sdiff,
      Finset.mem_image, Prod.exists]
    constructor
    · rintro ⟨⟨a, b, hab, hak⟩, hn⟩
      refine ⟨⟨b, hak ▸ hab⟩, ?_⟩
      intro s3 hs3
      exact hn ⟨k, s3, hs3, rfl⟩
    · rintro ⟨⟨s2, hs2⟩, hn⟩
      refine ⟨⟨k, s2, hs2, rfl⟩, ?_⟩
      rintro ⟨a, b, hab, hak⟩
      exact hn b (hak ▸ hab)
  · simp [msyncUpdates]
  · simp [msyncDeletes]

/-! ## C7: the file-state scanner -/

theorem findsFile_file_iff (n : String) (ds : List String) (f : String) :
    FindsFile (.file n) ds f ↔ ds = [] ∧ f = n := by
  constructor
  · intro h
    cases h
    exact ⟨rfl, rfl⟩
  · rintro ⟨rfl, rfl⟩
    exact FindsFile.file _

theorem findsFile_dir_iff (n : String) (cs : List FSEntry) (ds : List String)
    (f : String) :
    FindsFile (.dir n cs) ds f ↔
      ∃ ds2, ds = n :: ds2 ∧ ∃ c ∈ cs, FindsFile c ds2 f := by
  constructor
  · intro h
    cases h with
    | dir _ _ c _ ds2 hc hf => exact ⟨ds2, rfl, c, hc, hf⟩
  · rintro ⟨ds2, rfl, c, hc, hf⟩
    exact FindsFile.dir n f c cs ds2 hc hf

mutual

theorem scanEntry_mem (e : FSEntry) (ds : List String) (f : String) :
    (ds, f) ∈ scanEntry e ↔
      FindsFile e ds f ∧ (∀ d ∈ ds, isHidden d = false) ∧
        includeFile f = true := by
  cases e with
  | file n =>
    rw [scanEntry]
    by_cases hf : includeFile n = true
    · rw [if_pos hf]
      simp only [List.mem_singleton, Prod.mk.injEq, findsFile_file_iff]
      constructor
      · rintro ⟨rfl, rfl⟩
        exact ⟨⟨rfl, rfl⟩, by simp, hf⟩
      · rintro ⟨⟨rfl, rfl⟩, _, _⟩
        exact ⟨rfl, rfl⟩
    · rw [if_neg hf]
      simp only [List.not_mem_nil, false_iff, not_and, findsFile_file_iff]
      rintro ⟨rfl, rfl⟩ _
      exact fun hinc => hf hinc
  | dir n cs =>
    rw [scanEntry]
    by_cases hh : isHidden n = true
    · rw [if_pos hh]
      simp only [List.not_mem_nil, false_iff, not_and, findsFile_dir_iff]
      rintro ⟨ds2, rfl, _⟩ hd
      have := hd n (by simp)
      rw [this] at hh
      exact absurd hh (by simp)
    · rw [if_neg hh]
      have hn : isHidden n = false := by
        revert hh
        cases isHidden n <;> simp
      simp only [List.mem_map, findsFile_dir_iff]
      constructor
      · rintro ⟨⟨ds2, f2⟩, hmem, heq⟩
        obtain ⟨h1, h2⟩ := Prod.mk.injEq .. ▸ heq
        rw [scanList_mem cs ds2 f2] at hmem
        obtain ⟨c, hc, hff, hds, hinc⟩ := hmem
        subst h1
        subst h2
        refine ⟨⟨ds2, rfl, c, hc, hff⟩, ?_, hinc⟩
        intro d hd
        rcases List.mem_cons.mp hd with rfl | hd2
        · exact hn
        · exact hds d hd2
      · rintro ⟨⟨ds2, rfl, c, hc, hff⟩, hds, hinc⟩
        refine ⟨(ds2, f), ?_, rfl⟩
        rw [scanList_mem cs ds2 f]
        exact ⟨c, hc, hff, fun d hd => hds d (List.mem_cons_of_mem n hd), hinc⟩

theorem scanList_mem (es : List FSEntry) (ds : List String) (f : String) :
    (ds, f) ∈ scanList es ↔
      ∃ e ∈ es, FindsFile e ds f ∧ (∀ d ∈ ds, isHidden d = false) ∧
        includeFile f = true := by
  cases es with
  | nil => simp [scanList]
  | cons e es2 =>
    rw [scanList, List.mem_append, scanEntry_mem e ds f, scanList_mem es2 ds f]
    constructor
    · rintro (h | ⟨e2, he2, h⟩)
      · exact ⟨e, List.mem_cons_self e es2, h⟩
      · exact ⟨e2, List.mem_cons_of_mem e he2, h⟩
    · rintro ⟨e2, he2, h⟩
      rcases List.mem_cons.mp he2 with rfl | he3
      · exact Or.inl h
      · exact Or.inr ⟨e2, he3, h⟩

end

theorem includeFile_iff (f : String) :
    includeFile f = true ↔
      isHidden f = false ∧ ∃ x, extOf f = some x ∧
        (eqIgnoreAsciiCase x "md" = true ∨
          eqIgnoreAsciiCase x "markdown" = true) := by
  cases hext : extOf f with
  | none => simp [includeFile, hext]
  | some x => simp [includeFile, hext, extAccepted, Bool.not_eq_true']

/-- C7: the scanner includes a regular file exactly when every directory
basename on its relative path is non-hidden, its own basename is
non-hidden, and its extension, compared ASCII-case-insensitively, is
`md` or `markdown`; the hidden-basename check on directories prunes the
whole subtree (a file inside a dot-directory is never yielded), and the
uppercase name FOO.MARKDOWN is included. -/
theorem C7_scanner_inclusion (e : FSEntry) (ds : List String) (f : String) :
    ((ds, f) ∈ scanEntry e ↔
        FindsFile e ds f ∧ (∀ d ∈ ds, isHidden d = false) ∧
          includeFile f = true) ∧
      (includeFile f = true ↔
        isHidden f = false ∧ ∃ x, extOf f = some x ∧
          (eqIgnoreAsciiCase x "md" = true ∨
            eqIgnoreAsciiCase x "markdown" = true)) ∧
      includeFile "FOO.MARKDOWN" = true ∧
      ∀ cs, scanEntry (FSEntry.dir ".git" cs) = [] := by
  refine ⟨scanEntry_mem e ds f, includeFile_iff f, by decide, ?_⟩
  intro cs
  have hg : isHidden ".git" = true := by decide
  rw [scanEntry, hg, if_pos rfl]

/-! ## C1: `external_async_map` and result-vector length

The source collects the `(key, state)` pairs, calls the user function
on the batched carrier vector, and rebuilds the updates with
`keys.into_iter().zip(result)`.  There is no length comparison: `zip`
stops at the shorter side, so a short result vector silently truncates
the updates instead of failing. -/

/-- C1 (counterexample): on a session with two updates, a user function
returning a one-element vector (one fewer than the input) does not make
`external_async_map` fail; the call succeeds and silently keeps only
the first update, re-zipped with the single returned value. -/
theorem C1_no_length_check_counterexample :
    (msync2.updates.map fun u => u.sync_item) = [10, 20] ∧
      batchDrop [10, 20] = .ok [99] ∧
      ([99] : List Nat).length ≠ msync2.updates.length ∧
      externalAsyncMap batchDrop msync2 =
        .ok { updates := [⟨"a.md", 1, 99⟩], deletes := [] } :=
  ⟨rfl, rfl, by decide, rfl⟩

/-- C1 (amended): `external_async_map` succeeds whenever the user
function succeeds, performing no length check; the returned vector is
positionally re-zipped with the original `(key, state)` pairs and the
result is truncated to the shorter of the two lengths (so a vector of
equal length is re-zipped one to one, and a shorter vector silently
drops the excess updates rather than failing). -/
theorem C1_external_async_map_rezip (I J : Type) (s : MSync I)
    (f : List I → Except Unit (List J)) (r : List J)
    (hf : f (s.updates.map fun u => u.sync_item) = .ok r) :
    ∃ s2, externalAsyncMap f s = .ok s2 ∧
      s2.deletes = s.deletes ∧
      s2.updates.length = min s.updates.length r.length ∧
      ∀ (i : Nat), i < s2.updates.length →
        ∀ (d : FileItemUpdate I) (d2 : FileItemUpdate J) (dj : J),
          s2.updates.getD i d2 =
            ⟨(s.updates.getD i d).key, (s.updates.getD i d).state,
              r.getD i dj⟩ := by
  have hmain : externalAsyncMap f s = .ok
      { updates := ((s.updates.map fun u => (u.key, u.state)).zip r).map
          fun kv => ⟨kv.1.1, kv.1.2, kv.2⟩
        deletes := s.deletes } := by
    unfold externalAsyncMap
    dsimp only
    rw [hf]
  refine ⟨_, hmain, rfl, ?_, ?_⟩
  · simp
  · intro i hi d d2 dj
    simp only [List.length_map, List.length_zip, List.length_map] at hi
    have hiu : i < s.updates.length := lt_of_lt_of_le hi (min_le_left _ _)
    have hir : i < r.length := lt_of_lt_of_le hi (min_le_right _ _)
    rw [List.getD_eq_getElem _ _ (by simpa using hi),
      List.getD_eq_getElem _ _ hiu, List.getD_eq_getElem _ _ hir]
    simp [List.getElem_zip, List.getElem_map]

/-- Witness for C1 (amended) on the sample session and user function. -/
theorem C1_external_async_map_rezip_witness :
    batchDrop (msync2.updates.map fun u => u.sync_item) = .ok [99] ∧
      ∃ s2, externalAsyncMap batchDrop msync2 = .ok s2 ∧
        s2.deletes = msync2.deletes ∧
        s2.updates.length = min msync2.updates.length ([99] : List Nat).length ∧
        ∀ (i : Nat), i < s2.updates.length →
          ∀ (d : FileItemUpdate Nat) (d2 : FileItemUpdate Nat) (dj : Nat),
            s2.updates.getD i d2 =
              ⟨(msync2.updates.getD i d).key, (msync2.updates.getD i d).state,
                ([99] : List Nat).getD i dj⟩ :=
  ⟨rfl, C1_external_async_map_rezip Nat Nat msync2 batchDrop [99] rfl⟩

/-! ## C4: commits are all-or-nothing -/

theorem applyUpdates_none_of_bad {T : Type} (enc : T → Option Bytes)
    (k : FileKey) (s : FileState) (items : List T)
    (updates : List (FileKey × FileState × List T))
    (hmem : (k, s, items) ∈ updates) (hbad : encodeItems enc items = none)
    (ts : Table (List Bytes) × Table FileState) :
    applyUpdates enc ts updates = none := by
  induction updates generalizing ts with
  | nil => cases hmem
  | cons u rest ih =>
    rcases List.mem_cons.mp hmem with h1 | h2
    · subst h1
      rw [applyUpdates, hbad]
    · obtain ⟨k2, s2, items2⟩ := u
      rw [applyUpdates]
      cases he : encodeItems enc items2 with
      | none => rfl
      | some bs => exact ih h2 _

/-- C4: if any item of any update fails to encode during a commit, the
whole transaction is abandoned before `commit`, the error propagates to
the caller, and the on-disk tables are left exactly as they were. -/
theorem C4_commit_all_or_nothing (T : Type) (enc : T → Option Bytes)
    (disk : DiskDB) (updates : List (FileKey × FileState × List T))
    (deletes : List FileKey) (k : FileKey) (s : FileState) (items : List T)
    (hmem : (k, s, items) ∈ updates) (hbad : encodeItems enc items = none) :
    applySync enc disk updates deletes = .error () ∧
      diskAfterSync enc disk updates deletes = disk := by
  have h1 : applySync enc disk updates deletes = .error () := by
    rw [applySync, applyUpdates_none_of_bad enc k s items updates hmem hbad]
  refine ⟨h1, ?_⟩
  rw [diskAfterSync, h1]

/-- Witness for C4: committing `updates4` (whose second update holds
the unencodable item 7) on `disk1` fails and leaves `disk1` unchanged. -/
theorem C4_commit_all_or_nothing_witness :
    (("b.md", (2 : FileState), ([7] : List Nat)) ∈ updates4) ∧
      encodeItems encNat [7] = none ∧
      (applySync encNat disk1 updates4 deletes4 = .error () ∧
        diskAfterSync encNat disk1 updates4 deletes4 = disk1) :=
  ⟨by decide, rfl,
    C4_commit_all_or_nothing Nat encNat disk1 updates4 deletes4
      "b.md" 2 [7] (by decide) rfl⟩

/-! ## C5: equal key sets are preserved by commits -/

theorem applyUpdates_keys {T : Type} (enc : T → Option Bytes)
    (updates : List (FileKey × FileState × List T))
    (ts res : Table (List Bytes) × Table FileState)
    (hres : applyUpdates enc ts updates = some res)
    (hinv : ∀ k, (tfind k ts.1).isSome = (tfind k ts.2).isSome) :
    ∀ k, (tfind k res.1).isSome = (tfind k res.2).isSome := by
  induction updates generalizing ts with
  | nil =>
    rw [applyUpdates] at hres
    cases hres
    exact hinv
  | cons u rest ih =>
    obtain ⟨k2, s2, items2⟩ := u
    rw [applyUpdates] at hres
    cases he : encodeItems enc items2 with
    | none =>
      rw [he] at hres
      cases hres
    | some bs =>
      rw [he] at hres
      refine ih _ hres ?_
      intro k
      dsimp only
      rw [tfind_tinsert, tfind_tinsert]
      by_cases h : k2 = k
      · simp [h]
      · simp only [if_neg h]
        exact hinv k

theorem applyDeletes_keys (deletes : List FileKey)
    (ts : Table (List Bytes) × Table FileState)
    (hinv : ∀ k, (tfind k ts.1).isSome = (tfind k ts.2).isSome) :
    ∀ k, (tfind k (applyDeletes ts deletes).1).isSome
      = (tfind k (applyDeletes ts deletes).2).isSome := by
  induction deletes generalizing ts with
  | nil => exact hinv
  | cons d rest ih =>
    simp only [applyDeletes, List.foldl_cons] at ih ⊢
    refine ih _ ?_
    intro k
    dsimp only
    rw [tfind_terase, tfind_terase]
    by_cases h : d = k
    · simp [h]
    · simp only [if_neg h]
      exact hinv k

/-- C5: a commit applied to a store whose main table and state table
have equal key sets again yields equal key sets: each update inserts
its key into both tables, each delete removes its key from both. -/
theorem C5_key_sets_equal (T : Type) (enc : T → Option Bytes)
    (disk : DiskDB) (updates : List (FileKey × FileState × List T))
    (deletes : List FileKey) (disk2 : DiskDB)
    (hinv : ∀ k, (tfind k disk.main).isSome = (tfind k disk.state).isSome)
    (hok : applySync enc disk updates deletes = .ok disk2) :
    ∀ k, (tfind k disk2.main).isSome = (tfind k disk2.state).isSome := by
  rw [applySync] at hok
  cases hres : applyUpdates enc (disk.main, disk.state) updates with
  | none =>
    rw [hres] at hok
    cases hok
  | some ts =>
    rw [hres] at hok
    dsimp only at hok
    have h2 := applyUpdates_keys enc updates (disk.main, disk.state) ts hres hinv
    have h3 := applyDeletes_keys deletes ts h2
    cases hok
    exact h3

/-- Witness for C5 on `disk1` (whose two tables share the key set),
committing `updates5` and `deletes4`. -/
theorem C5_key_sets_equal_witness :
    (∀ k, (tfind k disk1.main).isSome = (tfind k disk1.state).isSome) ∧
      applySync encNat disk1 updates5 deletes4 = .ok disk5 ∧
      ∀ k, (tfind k disk5.main).isSome = (tfind k disk5.state).isSome := by
  have hinv : ∀ k, (tfind k disk1.main).isSome = (tfind k disk1.state).isSome := by
    intro k
    by_cases h : ("c.md" : String) = k <;> simp [disk1, tfind, h]
  exact ⟨hinv, rfl,
    C5_key_sets_equal Nat encNat disk1 updates5 deletes4 disk5 hinv rfl⟩

/-! ## C9: a failed populate leaves the old entry untouched -/

theorem applyUpdates_frame {T : Type} (enc : T → Option Bytes) (k : FileKey)
    (updates : List (FileKey × FileState × List T))
    (hk : ∀ g ∈ updates, g.1 ≠ k)
    (ts res : Table (List Bytes) × Table FileState)
    (hres : applyUpdates enc ts updates = some res) :
    tfind k res.1 = tfind k ts.1 ∧ tfind k res.2 = tfind k ts.2 := by
  induction updates generalizing ts with
  | nil =>
    rw [applyUpdates] at hres
    cases hres
    exact ⟨rfl, rfl⟩
  | cons g rest ih =>
    obtain ⟨k2, s2, items2⟩ := g
    rw [applyUpdates] at hres
    cases he : encodeItems enc items2 with
    | none =>
      rw [he] at hres
      cases hres
    | some bs =>
      rw [he] at hres
      have hk2 : k2 ≠ k := hk (k2, s2, items2) (List.mem_cons_self _ _)
      have hrec := ih (fun g hg => hk g (List.mem_cons_of_mem _ hg)) _ hres
      dsimp only at hrec
      rw [tfind_tinsert, if_neg hk2, tfind_tinsert, if_neg hk2] at hrec
      exact hrec

theorem applyDeletes_frame (k : FileKey) (deletes : List FileKey)
    (hk : k ∉ deletes) (ts : Table (List Bytes) × Table FileState) :
    tfind k (applyDeletes ts deletes).1 = tfind k ts.1 ∧
      tfind k (applyDeletes ts deletes).2 = tfind k ts.2 := by
  induction deletes generalizing ts with
  | nil => exact ⟨rfl, rfl⟩
  | cons d rest ih =>
    simp only [applyDeletes, List.foldl_cons] at ih ⊢
    have hd : d ≠ k := fun h => hk (List.mem_cons.mpr (Or.inl h.symm))
    have hk2 : k ∉ rest := fun h => hk (List.mem_cons_of_mem _ h)
    have hrec := ih hk2 (terase d ts.1, terase d ts.2)
    dsimp only at hrec
    rw [tfind_terase, if_neg hd, tfind_terase, if_neg hd] at hrec
    exact hrec

theorem groupUpdates_key_mem {I : Type} (us : List (FileItemUpdate I))
    (g : FileKey × FileState × List I) (hg : g ∈ groupUpdates us) :
    ∃ u ∈ us, u.key = g.1 := by
  rw [groupUpdates, List.mem_map] at hg
  obtain ⟨ks, hks, rfl⟩ := hg
  rw [groupKeys] at hks
  have hks2 := List.mem_dedup.mp hks
  rw [List.mem_map] at hks2
  obtain ⟨u, hu, he⟩ := hks2
  exact ⟨u, hu, congrArg Prod.fst he⟩

/-- C9: an update whose populate step fails (its file read returns no
contents) is dropped from the session while its key joins neither the
updates nor the deletes, so a subsequent successful commit leaves the
old main-table and state-table entries of that key unchanged. -/
theorem C9_populate_failure_frame (T : Type) (enc : T → Option Bytes)
    (readFile : FileKey → Option String) (f : FileKey → String → T)
    (s : MSync Unit) (k : FileKey) (disk disk2 : DiskDB)
    (hread : readFile k = none)
    (hupd : ∃ u ∈ s.updates, u.key = k)
    (hdel : k ∉ s.deletes)
    (hok : runSync enc disk (asyncPopulate readFile f s) = .ok disk2) :
    tfind k disk2.main = tfind k disk.main ∧
      tfind k disk2.state = tfind k disk.state := by
  have hkeys : ∀ u2 ∈ (asyncPopulate readFile f s).updates, u2.key ≠ k := by
    intro u2 hu2
    rw [asyncPopulate] at hu2
    simp only [List.mem_filterMap] at hu2
    obtain ⟨u, hu, hmap⟩ := hu2
    cases hr : readFile u.key with
    | none =>
      rw [hr] at hmap
      cases hmap
    | some c =>
      rw [hr] at hmap
      rw [Option.map_some'] at hmap
      cases hmap
      intro hkk
      rw [hkk] at hr
      rw [hread] at hr
      cases hr
  have hgk : ∀ g ∈ groupUpdates (asyncPopulate readFile f s).updates,
      g.1 ≠ k := by
    intro g hg
    obtain ⟨u2, hu2, he⟩ := groupUpdates_key_mem _ g hg
    exact he ▸ hkeys u2 hu2
  rw [runSync, applySync] at hok
  cases hres : applyUpdates enc (disk.main, disk.state)
      (groupUpdates (asyncPopulate readFile f s).updates) with
  | none =>
    rw [hres] at hok
    cases hok
  | some ts =>
    rw [hres] at hok
    dsimp only at hok
    have hfr1 := applyUpdates_frame enc k _ hgk _ ts hres
    have hfr2 := applyDeletes_frame k (asyncPopulate readFile f s).deletes
      hdel ts
    cases hok
    exact ⟨hfr2.1.trans hfr1.1, hfr2.2.trans hfr1.2⟩

/-- Witness for C9: the read of `g.md` fails during populate, the key
is in the session's updates and not in its deletes, the commit on
`disk8` succeeds, and the old entry of `g.md` survives. -/
theorem C9_populate_failure_frame_witness :
    readFile1 "g.md" = none ∧
      (∃ u ∈ msyncU.updates, u.key = "g.md") ∧
      ("g.md" : FileKey) ∉ msyncU.deletes ∧
      runSync encNat disk8 (asyncPopulate readFile1 popOne msyncU) =
        .ok disk7 ∧
      (tfind "g.md" disk7.main = tfind "g.md" disk8.main ∧
        tfind "g.md" disk7.state = tfind "g.md" disk8.state) :=
  ⟨rfl, by decide, by decide, rfl,
    C9_populate_failure_frame Nat encNat readFile1 popOne msyncU "g.md"
      disk8 disk7 rfl (by decide) (by decide) rfl⟩

/-! ## C8: decode failures — skipped by `db_iter`, fatal in `fold` -/

theorem foldValues_error_of_bad {T B : Type} (dec : Bytes → Option T)
    (f : B → FileKey → T → B) (k : FileKey) (vs : List Bytes) (acc : B)
    (hbad : ∃ v ∈ vs, dec v = none) :
    foldValues dec f k acc vs = .error () := by
  induction vs generalizing acc with
  | nil =>
    obtain ⟨v, hv, _⟩ := hbad
    cases hv
  | cons v2 rest ih =>
    rw [foldValues]
    cases hd : dec v2 with
    | none => rfl
    | some t =>
      obtain ⟨v, hv, hvbad⟩ := hbad
      rcases List.mem_cons.mp hv with h1 | h2
      · subst h1
        rw [hd] at hvbad
        cases hvbad
      · exact ih _ ⟨v, h2, hvbad⟩

/-- C8: a stored value that fails to decode is skipped by the uncached
disk iteration — `db_iter` yields exactly the decodable `(key, item)`
pairs, without failing — whereas in `fold` an item-decoding failure is
fatal: the fold stops and returns the error instead of an accumulator. -/
theorem C8_decode_skip_iter_fatal_fold (T : Type) (dec : Bytes → Option T)
    (m : Table (List Bytes)) (k : FileKey) (t : T) :
    ((k, t) ∈ dbIterItems dec m ↔
        ∃ vs, (k, vs) ∈ m ∧ ∃ v ∈ vs, dec v = some t) ∧
      ∀ (B : Type) (f : B → FileKey → T → B) (init : B),
        (∃ kv ∈ m, ∃ v ∈ kv.2, dec v = none) →
          foldDB dec f init m = .error () := by
  constructor
  · rw [dbIterItems, List.mem_flatMap]
    constructor
    · rintro ⟨kv, hkv, hmem⟩
      rw [List.mem_filterMap] at hmem
      obtain ⟨v, hv, hsome⟩ := hmem
      rw [Option.map_eq_some'] at hsome
      obtain ⟨a, ha, heq⟩ := hsome
      have hk : kv.1 = k := congrArg Prod.fst heq
      have ht : a = t := congrArg Prod.snd heq
      refine ⟨kv.2, ?_, v, hv, ht ▸ ha⟩
      rw [← hk]
      exact hkv
    · rintro ⟨vs, hvs, v, hv, hdec⟩
      refine ⟨(k, vs), hvs, ?_⟩
      rw [List.mem_filterMap]
      exact ⟨v, hv, by rw [hdec, Option.map_some']⟩
  · intro B f init hbad
    induction m generalizing init with
    | nil =>
      obtain ⟨kv, hkv, _⟩ := hbad
      cases hkv
    | cons kv2 rest ih =>
      obtain ⟨k2, vs2⟩ := kv2
      rw [foldDB]
      cases hfv : foldValues dec f k2 init vs2 with
      | error e => rfl
      | ok acc2 =>
        obtain ⟨kv, hkv, v, hv, hvbad⟩ := hbad
        rcases List.mem_cons.mp hkv with h1 | h2
        · subst h1
          rw [foldValues_error_of_bad dec f k2 vs2 init ⟨v, hv, hvbad⟩]
            at hfv
          cases hfv
        · exact ih _ ⟨kv, h2, v, hv, hvbad⟩

/-- Witness for C8's fold half: on `tableBad` (whose first row stores
the undecodable value `[200]`), `fold` returns the error. -/
theorem C8_decode_skip_iter_fatal_fold_witness :
    (∃ kv ∈ tableBad, ∃ v ∈ kv.2, decNat v = none) ∧
      foldDB decNat (fun acc _ v => acc + v) 0 tableBad = .error () :=
  ⟨by decide,
    (C8_decode_skip_iter_fatal_fold Nat decNat tableBad "a.md" 1).2
      Nat (fun acc _ v => acc + v) 0 (by decide)⟩

/-! ## C2: opening a store with no database file

`FileDB::new` calls `mem_map(None)`, which calls `db_iter(None)`, which
opens the database file with `Database::open` — failing with `NotFound`
when the file is absent.  `new` catches the error, logs a warning and
stores `cache: None` (not an empty snapshot).  `FileDB::iter` then runs
`self.cache.as_ref().expect(..)`, which panics on that store. -/

/-- C2 (counterexample): opening against a directory with no database
file yields a store whose cache is absent (`None`), not the empty
snapshot, and the cached iteration on that fresh store does not return
a snapshot — the `expect` inside `iter` panics (modelled `none`). -/
theorem C2_missing_db_counterexample :
    (fileDBNew decNat none).cache ≠ some ([] : List (FileKey × Nat)) ∧
      (fileDBNew decNat none).cache = none ∧
      fileDBIter (fileDBNew decNat none) = none :=
  ⟨by decide, rfl, rfl⟩

/-- C2 (amended): `open` itself never fails — it always returns a store
— but with no database file the cache is absent (`None`) rather than
empty, and `iter` on such a store panics instead of iterating; when the
database file is present and readable, the cache is the decoded
snapshot of the main table and `iter` returns it without error. -/
theorem C2_open_missing_db_cache (T : Type) (dec : Bytes → Option T)
    (d : DiskDB) :
    (fileDBNew dec (none : Option DiskDB)).cache = none ∧
      fileDBIter (fileDBNew dec (none : Option DiskDB)) = none ∧
      (fileDBNew dec (some d)).cache = some (dbIterItems dec d.main) ∧
      fileDBIter (fileDBNew dec (some d)) =
        some (dbIterItems dec d.main) :=
  ⟨rfl, rfl, rfl, rfl⟩

/-! ## C6: `flat_map` and grouping preserve per-key item order -/

theorem filter_key_expansion {I J : Type} (k : FileKey)
    (w : FileItemUpdate I) (f : I → List J) :
    ((f w.sync_item).map fun it =>
        (⟨w.key, w.state, it⟩ : FileItemUpdate J)).filter
      (fun v => v.key == k) =
      if w.key == k then
        (f w.sync_item).map fun it => (⟨w.key, w.state, it⟩ : FileItemUpdate J)
      else [] := by
  rw [List.filter_map]
  by_cases h : (w.key == k) = true
  · rw [if_pos h]
    have hc : ((fun v : FileItemUpdate J => v.key == k) ∘ fun it =>
        (⟨w.key, w.state, it⟩ : FileItemUpdate J)) = fun _ => true := by
      funext it
      exact h
    rw [hc, List.filter_true]
  · rw [if_neg h]
    have h2 : (w.key == k) = false := by
      revert h
      cases w.key == k <;> simp
    have hc : ((fun v : FileItemUpdate J => v.key == k) ∘ fun it =>
        (⟨w.key, w.state, it⟩ : FileItemUpdate J)) = fun _ => false := by
      funext it
      exact h2
    rw [hc, List.filter_false, List.map_nil]

theorem filter_key_flatMap_nil {I J : Type} (f : I → List J) (k : FileKey)
    (us : List (FileItemUpdate I))
    (h : us.filter (fun v => v.key == k) = []) :
    (us.flatMap fun v => (f v.sync_item).map fun it =>
        (⟨v.key, v.state, it⟩ : FileItemUpdate J)).filter
      (fun v => v.key == k) = [] := by
  induction us with
  | nil => rfl
  | cons w rest ih =>
    rw [List.filter_cons] at h
    rw [List.flatMap_cons, List.filter_append]
    by_cases hw : (w.key == k) = true
    · rw [if_pos hw] at h
      exact absurd h (List.cons_ne_nil _ _)
    · rw [if_neg hw] at h
      rw [filter_key_expansion, if_neg hw, List.nil_append]
      exact ih h

theorem filter_key_flatMap {I J : Type} (f : I → List J)
    (u : FileItemUpdate I) (us : List (FileItemUpdate I))
    (hu : us.filter (fun v => v.key == u.key) = [u]) :
    (us.flatMap fun v => (f v.sync_item).map fun it =>
        (⟨v.key, v.state, it⟩ : FileItemUpdate J)).filter
      (fun v => v.key == u.key) =
      (f u.sync_item).map fun it =>
        (⟨u.key, u.state, it⟩ : FileItemUpdate J) := by
  induction us with
  | nil => simp at hu
  | cons w rest ih =>
    rw [List.flatMap_cons, List.filter_append]
    rw [List.filter_cons] at hu
    by_cases hw : (w.key == u.key) = true
    · rw [if_pos hw] at hu
      injection hu with h1 h2
      subst h1
      rw [filter_key_expansion, if_pos hw,
        filter_key_flatMap_nil f w.key rest h2, List.append_nil]
    · rw [if_neg hw] at hu
      rw [filter_key_expansion, if_neg hw, List.nil_append]
      exact ih hu

theorem nodup_filter_eq_singleton {α : Type} (l : List α) (p : α → Bool)
    (a : α) (hnd : l.Nodup) (hmem : a ∈ l) (hpa : p a = true)
    (hall : ∀ b ∈ l, p b = true → b = a) : l.filter p = [a] := by
  have hand : (l.filter p).Nodup := hnd.filter p
  have hamem : a ∈ l.filter p := List.mem_filter.mpr ⟨hmem, hpa⟩
  have hallf : ∀ b ∈ l.filter p, b = a := by
    intro b hb
    have hb2 := List.mem_filter.mp hb
    exact hall b hb2.1 hb2.2
  cases hf : l.filter p with
  | nil =>
    rw [hf] at hamem
    cases hamem
  | cons b rest =>
    rw [hf] at hand hallf
    have hb : b = a := hallf b (List.mem_cons_self _ _)
    subst hb
    cases hrest : rest with
    | nil => rfl
    | cons c rest2 =>
      have hc : c = b := by
        apply hallf
        rw [hrest]
        exact List.mem_cons_of_mem _ (List.mem_cons_self _ _)
      have hnb : b ∉ rest := (List.nodup_cons.mp hand).1
      rw [hrest] at hnb
      exact absurd (List.mem_cons.mpr (Or.inl hc.symm)) hnb

theorem state_eq_of_filter {J : Type} (us2 : List (FileItemUpdate J))
    (k : FileKey) (st : FileState) (items : List J)
    (hfil : us2.filter (fun v => v.key == k) =
      items.map fun it => (⟨k, st, it⟩ : FileItemUpdate J))
    (u : FileItemUpdate J) (hu : u ∈ us2) (hk : u.key = k) :
    u.state = st := by
  have hmem : u ∈ us2.filter (fun v => v.key == k) :=
    List.mem_filter.mpr ⟨hu, by rw [hk]; exact beq_self_eq_true k⟩
  rw [hfil, List.mem_map] at hmem
  obtain ⟨it, _, he⟩ := hmem
  exact (congrArg FileItemUpdate.state he).symm

theorem groupUpdates_filter_key {J : Type} (us2 : List (FileItemUpdate J))
    (k : FileKey) (st : FileState) (items : List J)
    (hfil : us2.filter (fun v => v.key == k) =
      items.map fun it => (⟨k, st, it⟩ : FileItemUpdate J))
    (hne : items ≠ []) :
    (groupUpdates us2).filter (fun g => g.1 == k) = [(k, st, items)] := by
  have hpairs : (groupKeys us2).filter (fun ks => ks.1 == k) = [(k, st)] := by
    apply nodup_filter_eq_singleton
    · exact List.nodup_dedup _
    · rw [groupKeys, List.mem_dedup, List.mem_map]
      obtain ⟨it0, rest0, hitems⟩ : ∃ it0 rest0, items = it0 :: rest0 := by
        cases items with
        | nil => exact absurd rfl hne
        | cons a b => exact ⟨a, b, rfl⟩
      have hmem0 : (⟨k, st, it0⟩ : FileItemUpdate J) ∈
          us2.filter (fun v => v.key == k) := by
        rw [hfil, hitems, List.map_cons]
        exact List.mem_cons_self _ _
      exact ⟨⟨k, st, it0⟩, (List.mem_filter.mp hmem0).1, rfl⟩
    · exact beq_self_eq_true k
    · intro b hb hpb
      rw [groupKeys, List.mem_dedup, List.mem_map] at hb
      obtain ⟨u, hu, he⟩ := hb
      have hk : u.key = k := by
        have h1 : u.key = b.1 := congrArg Prod.fst he
        rw [h1]
        exact eq_of_beq hpb
      have hst := state_eq_of_filter us2 k st items hfil u hu hk
      rw [← he, hk, hst]
  have hpf : us2.filter (fun u => u.key == k && u.state == st) =
      us2.filter (fun v => v.key == k) := by
    apply List.filter_congr
    intro u hu
    by_cases hk : (u.key == k) = true
    · have hst := state_eq_of_filter us2 k st items hfil u hu (eq_of_beq hk)
      simp [hk, hst]
    · have hk2 : (u.key == k) = false := by
        revert hk
        cases u.key == k <;> simp
      simp [hk2]
  have hX : (us2.filter fun u => u.key == k && u.state == st).map
      (fun u => u.sync_item) = items := by
    rw [hpf, hfil, List.map_map]
    have hc : ((fun u : FileItemUpdate J => u.sync_item) ∘ fun it =>
        (⟨k, st, it⟩ : FileItemUpdate J)) = id := rfl
    rw [hc, List.map_id]
  rw [groupUpdates, List.filter_map]
  have hcomp : ((fun g : FileKey × FileState × List J => g.1 == k) ∘
      fun ks : FileKey × FileState =>
        (ks.1, ks.2,
          (us2.filter fun u => u.key == ks.1 && u.state == ks.2).map
            fun u => u.sync_item)) = fun ks => ks.1 == k := rfl
  rw [hcomp, hpairs, List.map_cons, List.map_nil]
  rw [show ((k, st).1, (k, st).2,
      (us2.filter fun u => u.key == (k, st).1 && u.state == (k, st).2).map
        fun u => u.sync_item) =
      (k, st,
        (us2.filter fun u => u.key == k && u.state == st).map
          fun u => u.sync_item) from rfl]
  rw [hX]

theorem applyUpdates_lookup_unique {T : Type} (enc : T → Option Bytes)
    (k : FileKey) (st : FileState) (items : List T)
    (triples : List (FileKey × FileState × List T))
    (h1 : triples.filter (fun g => g.1 == k) = [(k, st, items)])
    (ts res : Table (List Bytes) × Table FileState)
    (hres : applyUpdates enc ts triples = some res) :
    ∃ bs, encodeItems enc items = some bs ∧
      tfind k res.1 = some bs ∧ tfind k res.2 = some st := by
  induction triples generalizing ts with
  | nil => simp at h1
  | cons g rest ih =>
    obtain ⟨k2, s2, items2⟩ := g
    rw [applyUpdates] at hres
    cases he : encodeItems enc items2 with
    | none =>
      rw [he] at hres
      cases hres
    | some bs2 =>
      rw [he] at hres
      rw [List.filter_cons] at h1
      by_cases hk2 : (k2 == k) = true
      · rw [if_pos hk2] at h1
        injection h1 with h1a h1b
        have h1k : k2 = k := congrArg Prod.fst h1a
        have h1s : s2 = st := congrArg (fun p : FileKey × FileState × List T => p.2.1) h1a
        have h1i : items2 = items := congrArg (fun p : FileKey × FileState × List T => p.2.2) h1a
        have hrk : ∀ g2 ∈ rest, g2.1 ≠ k := by
          intro g2 hg2 hgk
          have hmem : g2 ∈ rest.filter (fun g => g.1 == k) :=
            List.mem_filter.mpr ⟨hg2, by rw [hgk]; exact beq_self_eq_true k⟩
          rw [h1b] at hmem
          cases hmem
        have hfr := applyUpdates_frame enc k rest hrk _ res hres
        dsimp only at hfr
        refine ⟨bs2, by rw [← h1i]; exact he, ?_, ?_⟩
        · rw [hfr.1, tfind_tinsert, if_pos h1k]
        · rw [hfr.2, tfind_tinsert, if_pos h1k, h1s]
      · rw [if_neg hk2] at h1
        exact ih h1 _ hres

/-- C6: when an update is the only one for its key and `flat_map`
expands its carrier to a non-empty sequence, the expanded carriers keep
the parent's key and state in expansion order, the grouping step of
`run` collects exactly that sequence for the `(key, state)` group, and
after a successful commit the main table stores for that key precisely
the expansion, item by item in order (in encoded form), with the state
table holding the parent's stamp. -/
theorem C6_flat_map_order_preserved (T I2 : Type) (enc : T → Option Bytes)
    (disk disk2 : DiskDB) (s : MSync I2) (f : I2 → List T)
    (u : FileItemUpdate I2)
    (hu : s.updates.filter (fun v => v.key == u.key) = [u])
    (hne : f u.sync_item ≠ [])
    (hdel : u.key ∉ s.deletes)
    (hok : runSync enc disk (flatMapSync f s) = .ok disk2) :
    ((flatMapSync f s).updates.filter (fun v => v.key == u.key) =
        (f u.sync_item).map fun it => ⟨u.key, u.state, it⟩) ∧
      ∃ bs, encodeItems enc (f u.sync_item) = some bs ∧
        tfind u.key disk2.main = some bs ∧
        tfind u.key disk2.state = some u.state := by
  have hfil := filter_key_flatMap f u s.updates hu
  refine ⟨hfil, ?_⟩
  have hgf := groupUpdates_filter_key (flatMapSync f s).updates u.key u.state
    (f u.sync_item) hfil hne
  rw [runSync, applySync] at hok
  cases hres : applyUpdates enc (disk.main, disk.state)
      (groupUpdates (flatMapSync f s).updates) with
  | none =>
    rw [hres] at hok
    cases hok
  | some ts =>
    rw [hres] at hok
    dsimp only at hok
    obtain ⟨bs, hbs, hm, hs2⟩ := applyUpdates_lookup_unique enc u.key u.state
      (f u.sync_item) _ hgf _ ts hres
    have hfr := applyDeletes_frame u.key (flatMapSync f s).deletes hdel ts
    cases hok
    exact ⟨bs, hbs, hfr.1.trans hm, hfr.2.trans hs2⟩

/-- Witness for C6: the single update of `msync1` expands under
`fExpand` to two items, and the commit on `disk1` stores them for
`a.md` in expansion order. -/
theorem C6_flat_map_order_preserved_witness :
    (msync1.updates.filter
        (fun v => v.key == (⟨"a.md", 1, 10⟩ : FileItemUpdate Nat).key) =
      [⟨"a.md", 1, 10⟩]) ∧
      fExpand (10 : Nat) ≠ [] ∧
      (("a.md" : FileKey) ∉ msync1.deletes) ∧
      runSync encNat disk1 (flatMapSync fExpand msync1) = .ok disk6 ∧
      (((flatMapSync fExpand msync1).updates.filter
          (fun v => v.key == (⟨"a.md", 1, 10⟩ : FileItemUpdate Nat).key) =
        (fExpand 10).map fun it => ⟨"a.md", 1, it⟩) ∧
        ∃ bs, encodeItems encNat (fExpand 10) = some bs ∧
          tfind "a.md" disk6.main = some bs ∧
          tfind "a.md" disk6.state = some 1) :=
  ⟨by decide, by decide, by decide, rfl,
    C6_flat_map_order_preserved Nat Nat encNat disk1 disk6 msync1 fExpand
      ⟨"a.md", 1, 10⟩ (by decide) (by decide) (by decide) rfl⟩

end Vault
